import Mathlib

/- Shallow embedding of Detegr/RBot-parser (src/lib.rs), an IRC-line parser
   built from nom 0.x combinators.  Input strings are modelled as `List Char`:
   the Rust code operates on `&[u8]` slices of valid UTF-8 and every delimiter
   it uses (' ', ':', '!', '@', '\r') is a single ASCII byte, so byte-level and
   char-level splitting coincide on the parser's inputs.  nom's `IResult` is
   modelled by `NResult`, keeping the Done / Incomplete / Error trichotomy and
   dropping the `Needed` / error payloads (only the kind of failure is ever
   observed by `parse_message`). -/

namespace RBot

inductive NResult (α : Type) : Type where
  | Done (rest : List Char) (val : α)
  | Incomplete
  | Error
deriving DecidableEq

-- nom `take_until!(d)`: the longest prefix strictly before the first
-- occurrence of the delimiter string `d`; the delimiter itself is not
-- consumed.  When `d` never occurs (in particular when the input is too
-- short) nom signals `Incomplete`, never `Error`.
def takeUntil (d : List Char) : List Char → NResult (List Char)
  | [] => if d.isEmpty then .Done [] [] else .Incomplete
  | c :: rest =>
    if d.isPrefixOf (c :: rest) then .Done (c :: rest) []
    else
      match takeUntil d rest with
      | .Done r v => .Done r (c :: v)
      | .Incomplete => .Incomplete
      | .Error => .Error

-- nom `take_until_and_consume!(d)`: as `take_until!` but the delimiter is
-- consumed from the remaining input.
def takeUntilAndConsume (d : List Char) (i : List Char) : NResult (List Char) :=
  match takeUntil d i with
  | .Done r v => .Done (r.drop d.length) v
  | .Incomplete => .Incomplete
  | .Error => .Error

-- nom `tag!(t)`: match the literal `t` at the head of the input.  A too-short
-- input yields `Incomplete`, a mismatch yields `Error`.
def tagTok (t : List Char) (i : List Char) : NResult (List Char) :=
  if i.length < t.length then .Incomplete
  else if t.isPrefixOf i then .Done (i.drop t.length) t
  else .Error

-- nom `is_space`: the byte is a space or a tab.
def isSpaceChar (c : Char) : Bool := c == ' ' || c == '\t'

-- nom `space`: one or more space/tab bytes.  A leading non-space byte yields
-- `Error`; if the whole input is spaces (or empty) everything is consumed.
def spaceTok (i : List Char) : NResult (List Char) :=
  match i with
  | [] => .Done [] []
  | c :: _ =>
    if isSpaceChar c then .Done (i.dropWhile isSpaceChar) (i.takeWhile isSpaceChar)
    else .Error

-- Sequencing inside nom `chain!`: a failing step aborts the chain with the
-- same failure kind.
def nbind {α β : Type} (x : NResult α) (f : α → List Char → NResult β) : NResult β :=
  match x with
  | .Done r v => f v r
  | .Incomplete => .Incomplete
  | .Error => .Error

-- A `?`-marked step of nom 0.x `chain!`: a failing optional step (whether
-- `Error` or `Incomplete`) contributes `None` and consumes nothing.  This is
-- pinned down by the crate's own passing test `test_parsing_line_without_trailing`,
-- whose optional `take_until_and_consume!(":")` step finds no colon (which in
-- nom is an `Incomplete`, since more input could still contain one) and is
-- skipped rather than propagated.
def nopt {α : Type} (x : NResult α) (i : List Char) : NResult (Option α) :=
  match x with
  | .Done r v => .Done r (some v)
  | .Incomplete => .Done i none
  | .Error => .Done i none

-- `named!(word_parser ..., take_until!(" "))` (the `map_res!(..., from_utf8)`
-- wrapper is the identity in this model: every split happens at an ASCII byte
-- of a valid UTF-8 string, so `from_utf8` always succeeds).
def wordP (i : List Char) : NResult (List Char) := takeUntil ([' ']) i

-- `named!(eol ..., take_until_and_consume!("\r"))`.
def eolP (i : List Char) : NResult (List Char) := takeUntilAndConsume (['\r']) i

-- `named!(nick_parser ..., chain!(nick: take_until!("!") ~ tag!("!"), ...))`.
def nickP (i : List Char) : NResult (List Char) :=
  nbind (takeUntil (['!']) i) fun nick r =>
  nbind (tagTok (['!']) r) fun _ r2 => .Done r2 nick

-- `named!(user_parser ..., chain!(user: take_until!("@") ~ tag!("@"), ...))`.
def userP (i : List Char) : NResult (List Char) :=
  nbind (takeUntil (['@']) i) fun user r =>
  nbind (tagTok (['@']) r) fun _ r2 => .Done r2 user

-- `named!(host_parser ..., chain!(nick: nick_parser ~ user: user_parser ~
--  host: word_parser, ...))`.
def hostP (i : List Char) : NResult (List Char × List Char × List Char) :=
  nbind (nickP i) fun nick r =>
  nbind (userP r) fun user r2 =>
  nbind (wordP r2) fun host r3 => .Done r3 (nick, user, host)

-- `enum Prefix<'a> { User(&str, &str, &str), Server(&str) }`.
inductive Pfx : Type where
  | User (nick user host : List Char)
  | Server (name : List Char)
deriving DecidableEq

-- `named!(prefix_parser ..., chain!(tag!(":") ~ prefix: word_parser ~ space,
--  || match host_parser(prefix.as_bytes()) { Done(_, t) => User t, _ => Server }))`.
def pfxP (i : List Char) : NResult Pfx :=
  nbind (tagTok ([':']) i) fun _ r =>
  nbind (wordP r) fun w r2 =>
  nbind (spaceTok r2) fun _ r3 =>
  .Done r3 (match hostP w with
    | .Done _ (n, u, h) => .User n u h
    | _ => .Server w)

-- `enum Command<'a> { Named(Cow<str>), Numeric(u16) }`; the numeric payload is
-- a `Nat` that `u16FromStr` only ever produces in `0..=65535`.
inductive Command : Type where
  | Named (s : List Char)
  | Numeric (n : Nat)
deriving DecidableEq

-- Digit loop of Rust `u16::from_str` (`from_str_radix` with radix 10): each
-- byte must be an ASCII digit and the checked `*10 + d` must stay within
-- `u16::MAX`, otherwise the parse fails (InvalidDigit / PosOverflow).
def u16FromStrDigits : List Char → Nat → Option Nat
  | [], acc => some acc
  | c :: cs, acc =>
    if c.isDigit then
      if acc * 10 + (c.toNat - 48) ≤ 65535 then
        u16FromStrDigits cs (acc * 10 + (c.toNat - 48))
      else none
    else none

-- Rust `u16::from_str`: an empty string fails; a single leading '+' is
-- stripped (but "+" alone fails); a leading '-' fails for an unsigned type;
-- the rest must be one or more ASCII digits whose value fits in a u16.
def u16FromStr (s : List Char) : Option Nat :=
  match s with
  | [] => none
  | c :: rest =>
    if c = '+' then (if rest.isEmpty then none else u16FromStrDigits rest 0)
    else if c = '-' then none
    else u16FromStrDigits s 0

-- The decimal value of a digit run, folded left exactly as the `from_str`
-- loop accumulates it (used to state what `u16FromStr` computes).
def digitsVal : Nat → List Char → Nat
  | acc, [] => acc
  | acc, c :: cs => digitsVal (acc * 10 + (c.toNat - 48)) cs

-- The digit region of a numeric token: Rust's integer `from_str` strips one
-- leading '+' sign before the digit loop.
def plusStripped (tok : List Char) : List Char :=
  if tok.head? = some ('+') then tok.tail else tok

-- `named!(command_parser ..., chain!(cmd: word_parser, || match from_str(cmd)
--  { Ok(n) => Numeric(n), Err(_) => Named(cmd) }))`.
def commandP (i : List Char) : NResult Command :=
  nbind (wordP i) fun cmd r =>
  .Done r (match u16FromStr cmd with
    | some n => .Numeric n
    | none => .Named cmd)

-- `struct Message<'a> { prefix: Option<Prefix>, command: Command, params: Vec<&str> }`.
structure Message : Type where
  pfx : Option Pfx
  command : Command
  params : List (List Char)
deriving DecidableEq

-- Rust `char::is_whitespace`: the Unicode White_Space property (25 code
-- points), used by `str::split_whitespace`.
def rustIsWhitespace (c : Char) : Bool :=
  ([0x9, 0xA, 0xB, 0xC, 0xD, 0x20, 0x85, 0xA0, 0x1680,
    0x2000, 0x2001, 0x2002, 0x2003, 0x2004, 0x2005, 0x2006, 0x2007,
    0x2008, 0x2009, 0x200A, 0x2028, 0x2029, 0x202F, 0x205F, 0x3000] : List Nat).contains c.toNat

def splitWhitespaceAux : List Char → List Char → List (List Char)
  | [], acc => if acc.isEmpty then [] else [acc.reverse]
  | c :: rest, acc =>
    if rustIsWhitespace c then
      (if acc.isEmpty then [] else [acc.reverse]) ++ splitWhitespaceAux rest []
    else splitWhitespaceAux rest (c :: acc)

-- Rust `str::split_whitespace`: split on Unicode whitespace, discarding empty
-- tokens.
def splitWhitespace (l : List Char) : List (List Char) := splitWhitespaceAux l []

-- The tail of `message_parser` after the optional prefix step: command, then
-- the optional `take_until_and_consume!(":")` middle-parameter region, then
-- `eol`, then the parameter assembly from the chain's closure
-- (`p.split_whitespace().chain(repeat(trailing).take(1))` in the colon case,
-- `trailing.split_whitespace()` otherwise).
def afterPfx (ppfx : Option Pfx) (r : List Char) : NResult Message :=
  nbind (commandP r) fun pcmd r2 =>
  nbind (nopt (takeUntilAndConsume ([':']) r2) r2) fun pparams r3 =>
  nbind (eolP r3) fun ptrail r4 =>
  .Done r4 { pfx := ppfx, command := pcmd,
             params := match pparams with
               | some p => splitWhitespace p ++ [ptrail]
               | none => splitWhitespace ptrail }

-- `named!(message_parser ..., chain!(parsed_prefix: prefix_parser? ~ ...))`.
def messageP (i : List Char) : NResult Message :=
  nbind (nopt (pfxP i) i) fun ppfx r => afterPfx ppfx r

-- `ParserError` as observed through `parse_message`: the `Incomplete(i)` arm
-- and the `Error(e)` arm (the latter is the "Malformed" kind of the spec).
inductive ParseError : Type where
  | Incomplete
  | Malformed
deriving DecidableEq

-- `pub fn parse_message(input: &str) -> Result<Message, ParserError>`.
def parse_message (input : List Char) : Except ParseError Message :=
  match messageP input with
  | .Done _ msg => .ok msg
  | .Incomplete => .error .Incomplete
  | .Error => .error .Malformed

-- `impl Display for Command`: `Named(s)` prints `s`, `Numeric(n)` prints the
-- decimal digits of `n`.
def Command.toStr : Command → List Char
  | .Named s => s
  | .Numeric n => (Nat.repr n).toList

-- `impl Display for Prefix`: `User` prints `nick!user@host`, `Server` prints
-- the bare name.
def Pfx.toStr : Pfx → List Char
  | .User n u h => n ++ ('!') :: u ++ ('@') :: h
  | .Server s => s

-- `Message::to_whitespace_separated`: command, a space, the prefix text (or
-- nothing), a space, then the params joined by single spaces.
def Message.to_whitespace_separated (m : Message) : List Char :=
  Command.toStr m.command ++ [' ']
    ++ (match m.pfx with
        | some p => Pfx.toStr p
        | none => [])
    ++ [' ']
    ++ List.intercalate ([' ']) m.params

-- The shape of an optional `":" ++ word ++ " "` prefix region of an input
-- line, used to quantify over both prefixed and unprefixed lines at once.
def pfxPart : Option (List Char) → List Char
  | none => []
  | some w => (':') :: w ++ [' ']

/- Combinator lemmas. -/

theorem takeUntil_ne_error (d l : List Char) : takeUntil d l ≠ .Error := by
  induction l with
  | nil =>
    unfold takeUntil
    split <;> simp
  | cons c rest ih =>
    unfold takeUntil
    split
    · simp
    · cases h : takeUntil d rest with
      | Done r v => simp
      | Incomplete => simp
      | Error => exact absurd h ih

theorem takeUntil_done_split {d l r v : List Char}
    (h : takeUntil d l = .Done r v) : l = v ++ r := by
  induction l generalizing r v with
  | nil =>
    unfold takeUntil at h
    split at h
    · cases h
      rfl
    · cases h
  | cons c rest ih =>
    unfold takeUntil at h
    split at h
    · cases h
      rfl
    · cases heq : takeUntil d rest with
      | Done r1 v1 =>
        rw [heq] at h
        cases h
        simpa using ih heq
      | Incomplete => rw [heq] at h; cases h
      | Error => rw [heq] at h; cases h

theorem takeUntil_done_head {d : Char} {l r v : List Char}
    (h : takeUntil ([d]) l = .Done r v) : ∃ t, r = d :: t := by
  induction l generalizing r v with
  | nil =>
    unfold takeUntil at h
    simp at h
  | cons c rest ih =>
    unfold takeUntil at h
    split at h
    · rename_i hpre
      cases h
      have hdc : d = c := by simpa [List.isPrefixOf] using hpre
      exact ⟨rest, by rw [hdc]⟩
    · cases heq : takeUntil ([d]) rest with
      | Done r1 v1 =>
        rw [heq] at h
        cases h
        exact ih heq
      | Incomplete => rw [heq] at h; cases h
      | Error => rw [heq] at h; cases h

theorem takeUntil_cons_found {d : Char} {xs : List Char} (ys : List Char)
    (h : d ∉ xs) : takeUntil ([d]) (xs ++ d :: ys) = .Done (d :: ys) xs := by
  induction xs with
  | nil => simp [takeUntil, List.isPrefixOf]
  | cons x xs ih =>
    have hdx : ¬ (d = x) := fun e => h (by simp [e])
    have h' : d ∉ xs := fun e => h (List.mem_cons_of_mem _ e)
    rw [List.cons_append]
    unfold takeUntil
    rw [if_neg (by simp [List.isPrefixOf, hdx])]
    rw [ih h']

theorem takeUntil_not_found {d : Char} {l : List Char}
    (h : d ∉ l) : takeUntil ([d]) l = .Incomplete := by
  induction l with
  | nil => simp [takeUntil]
  | cons c rest ih =>
    have hdc : ¬ (d = c) := fun e => h (by simp [e])
    have h' : d ∉ rest := fun e => h (List.mem_cons_of_mem _ e)
    unfold takeUntil
    rw [if_neg (by simp [List.isPrefixOf, hdc])]
    rw [ih h']

theorem takeUntil_done_not_mem {d : Char} {l r v : List Char}
    (h : takeUntil ([d]) l = .Done r v) : d ∉ v := by
  induction l generalizing r v with
  | nil =>
    unfold takeUntil at h
    simp at h
  | cons c rest ih =>
    unfold takeUntil at h
    split at h
    · cases h
      simp
    · rename_i hpre
      have hdc : ¬ (d = c) := by
        intro e
        exact hpre (by simp [List.isPrefixOf, e])
      cases heq : takeUntil ([d]) rest with
      | Done r1 v1 =>
        rw [heq] at h
        cases h
        simpa [hdc] using ih heq
      | Incomplete => rw [heq] at h; cases h
      | Error => rw [heq] at h; cases h

theorem tuac_found {d : Char} {xs : List Char} (ys : List Char) (h : d ∉ xs) :
    takeUntilAndConsume ([d]) (xs ++ d :: ys) = .Done ys xs := by
  unfold takeUntilAndConsume
  rw [takeUntil_cons_found ys h]
  rfl

theorem tuac_not_found {d : Char} {l : List Char} (h : d ∉ l) :
    takeUntilAndConsume ([d]) l = .Incomplete := by
  unfold takeUntilAndConsume
  rw [takeUntil_not_found h]

theorem tuac_ne_error (d l : List Char) : takeUntilAndConsume d l ≠ .Error := by
  unfold takeUntilAndConsume
  cases h : takeUntil d l with
  | Done r v => simp
  | Incomplete => simp
  | Error => exact absurd h (takeUntil_ne_error d l)

theorem tuac_done_split {d : Char} {l r v : List Char}
    (h : takeUntilAndConsume ([d]) l = .Done r v) : l = v ++ d :: r := by
  unfold takeUntilAndConsume at h
  cases heq : takeUntil ([d]) l with
  | Done r1 v1 =>
    rw [heq] at h
    obtain ⟨t, ht⟩ := takeUntil_done_head heq
    cases h
    have := takeUntil_done_split heq
    simpa [ht] using this
  | Incomplete => rw [heq] at h; cases h
  | Error => rw [heq] at h; cases h

theorem tag_cons_eq (d : Char) (l : List Char) :
    tagTok ([d]) (d :: l) = .Done l ([d]) := by
  simp [tagTok, List.isPrefixOf]

theorem tag_cons_ne {c d : Char} (l : List Char) (h : ¬ (d = c)) :
    tagTok ([d]) (c :: l) = .Error := by
  simp [tagTok, List.isPrefixOf, h]

theorem tag_done_inv {d : Char} {l r v : List Char}
    (h : tagTok ([d]) l = .Done r v) : l = d :: r := by
  cases l with
  | nil =>
    unfold tagTok at h
    simp at h
  | cons c t =>
    unfold tagTok at h
    split at h
    · cases h
    · split at h
      · rename_i hpre
        have hdc : d = c := by simpa [List.isPrefixOf] using hpre
        cases h
        simp [hdc]
      · cases h

theorem space_cons_stop {c0 : Char} (t : List Char) (h : isSpaceChar c0 = false) :
    spaceTok ((' ') :: c0 :: t) = .Done (c0 :: t) ([' ']) := by
  have h' : (c0 == ' ' || c0 == '\t') = false := by simpa [isSpaceChar] using h
  simp [spaceTok, isSpaceChar, List.dropWhile, List.takeWhile, h']

theorem space_done_split {l r v : List Char}
    (h : spaceTok l = .Done r v) : l = v ++ r := by
  cases l with
  | nil =>
    simp [spaceTok] at h
    obtain ⟨rfl, rfl⟩ := h
    rfl
  | cons c t =>
    by_cases hc : isSpaceChar c = true
    · simp [spaceTok, hc] at h
      obtain ⟨rfl, rfl⟩ := h
      simp [List.takeWhile_append_dropWhile]
    · simp [spaceTok, hc] at h

/- Parser-level lemmas. -/

theorem hostP_no_space {w : List Char} (h : (' ') ∉ w) (r : List Char)
    (t : List Char × List Char × List Char) : hostP w ≠ .Done r t := by
  intro hd
  cases h1 : takeUntil (['!']) w with
  | Error => exact takeUntil_ne_error _ _ h1
  | Incomplete => simp [hostP, nickP, nbind, h1] at hd
  | Done r1 nick =>
    obtain ⟨t1, rfl⟩ := takeUntil_done_head h1
    have hw : w = nick ++ ('!') :: t1 := takeUntil_done_split h1
    cases h2 : takeUntil (['@']) t1 with
    | Error => exact takeUntil_ne_error _ _ h2
    | Incomplete => simp [hostP, nickP, userP, nbind, h1, tag_cons_eq, h2] at hd
    | Done r2 user =>
      obtain ⟨t2, rfl⟩ := takeUntil_done_head h2
      have ht1 : t1 = user ++ ('@') :: t2 := takeUntil_done_split h2
      have hsp : (' ') ∉ t2 := by
        intro hm
        exact h (by rw [hw, ht1]; simp [hm])
      have h3 : takeUntil ([' ']) t2 = .Incomplete := takeUntil_not_found hsp
      simp [hostP, nickP, userP, wordP, nbind, h1, tag_cons_eq, h2, h3] at hd

theorem pfxP_server {w : List Char} (hw : (' ') ∉ w) {c0 : Char} (t : List Char)
    (hc0 : isSpaceChar c0 = false) :
    pfxP ((':') :: (w ++ (' ') :: c0 :: t)) = .Done (c0 :: t) (.Server w) := by
  have h2 : takeUntil ([' ']) (w ++ (' ') :: c0 :: t) = .Done ((' ') :: c0 :: t) w :=
    takeUntil_cons_found _ hw
  have h3 : spaceTok ((' ') :: c0 :: t) = .Done (c0 :: t) ([' ']) := space_cons_stop t hc0
  cases hh : hostP w with
  | Done rr tt => exact absurd hh (hostP_no_space hw rr tt)
  | Incomplete => simp [pfxP, nbind, wordP, tag_cons_eq, h2, h3, hh]
  | Error => simp [pfxP, nbind, wordP, tag_cons_eq, h2, h3, hh]

theorem pfxP_no_colon {c0 : Char} (t : List Char) (h : ¬ ((':') = c0)) :
    pfxP (c0 :: t) = .Error := by
  simp [pfxP, nbind, tag_cons_ne t h]

theorem pfxP_done_split {i r : List Char} {p : Pfx}
    (h : pfxP i = .Done r p) : ∃ pre, i = pre ++ r := by
  cases h1 : tagTok ([':']) i with
  | Incomplete => simp [pfxP, nbind, h1] at h
  | Error => simp [pfxP, nbind, h1] at h
  | Done r1 v1 =>
    cases h2 : wordP r1 with
    | Incomplete => simp [pfxP, nbind, h1, h2] at h
    | Error => simp [pfxP, nbind, h1, h2] at h
    | Done r2 w =>
      cases h3 : spaceTok r2 with
      | Incomplete => simp [pfxP, nbind, h1, h2, h3] at h
      | Error => simp [pfxP, nbind, h1, h2, h3] at h
      | Done r3 sp =>
        simp [pfxP, nbind, h1, h2, h3] at h
        obtain ⟨rfl, -⟩ := h
        have e1 : i = (':') :: r1 := tag_done_inv h1
        have e2 : r1 = w ++ r2 := takeUntil_done_split (by simpa [wordP] using h2)
        have e3 : r2 = sp ++ r3 := space_done_split h3
        exact ⟨(':') :: (w ++ sp), by simp [e1, e2, e3]⟩

theorem splitWhitespace_ws_cons (c : Char) (l : List Char)
    (h : rustIsWhitespace c = true) : splitWhitespace (c :: l) = splitWhitespace l := by
  simp [splitWhitespace, splitWhitespaceAux, h]

theorem afterPfx_colon (p : Option Pfx) {cmd : List Char} (mid trail rest : List Char)
    (hc : (' ') ∉ cmd) (hm1 : (':') ∉ mid) (ht : ('\r') ∉ trail) :
    afterPfx p (cmd ++ (' ') :: (mid ++ (':') :: (trail ++ ('\r') :: rest))) =
      .Done rest
        { pfx := p,
          command := match u16FromStr cmd with
            | some n => .Numeric n
            | none => .Named cmd,
          params := splitWhitespace mid ++ [trail] } := by
  have h1 : takeUntil ([' ']) (cmd ++ (' ') :: (mid ++ (':') :: (trail ++ ('\r') :: rest))) =
      .Done ((' ') :: (mid ++ (':') :: (trail ++ ('\r') :: rest))) cmd :=
    takeUntil_cons_found _ hc
  have hm : (':') ∉ ((' ') :: mid) := by
    intro hx
    rcases List.mem_cons.mp hx with hx | hx
    · exact absurd hx (by decide)
    · exact hm1 hx
  have h2 : takeUntilAndConsume ([':']) ((' ') :: (mid ++ (':') :: (trail ++ ('\r') :: rest))) =
      .Done (trail ++ ('\r') :: rest) ((' ') :: mid) := by
    simpa using tuac_found (trail ++ ('\r') :: rest) hm
  have h3 : eolP (trail ++ ('\r') :: rest) = .Done rest trail := by
    simpa [eolP] using tuac_found rest ht
  have hws : splitWhitespace ((' ') :: mid) = splitWhitespace mid :=
    splitWhitespace_ws_cons (' ') mid (by decide)
  simp [afterPfx, commandP, nbind, nopt, wordP, h1, h2, h3, hws]

theorem afterPfx_nocolon (p : Option Pfx) {cmd : List Char} (mid rest : List Char)
    (hc : (' ') ∉ cmd) (hm1 : (':') ∉ mid) (hm2 : ('\r') ∉ mid) (hr : (':') ∉ rest) :
    afterPfx p (cmd ++ (' ') :: (mid ++ ('\r') :: rest)) =
      .Done rest
        { pfx := p,
          command := match u16FromStr cmd with
            | some n => .Numeric n
            | none => .Named cmd,
          params := splitWhitespace mid } := by
  have h1 : takeUntil ([' ']) (cmd ++ (' ') :: (mid ++ ('\r') :: rest)) =
      .Done ((' ') :: (mid ++ ('\r') :: rest)) cmd :=
    takeUntil_cons_found _ hc
  have hnc : (':') ∉ ((' ') :: (mid ++ ('\r') :: rest)) := by
    intro hx
    rcases List.mem_cons.mp hx with hx | hx
    · exact absurd hx (by decide)
    · rcases List.mem_append.mp hx with hx | hx
      · exact hm1 hx
      · rcases List.mem_cons.mp hx with hx | hx
        · exact absurd hx (by decide)
        · exact hr hx
  have h2 : takeUntilAndConsume ([':']) ((' ') :: (mid ++ ('\r') :: rest)) = .Incomplete :=
    tuac_not_found hnc
  have hmr : ('\r') ∉ ((' ') :: mid) := by
    intro hx
    rcases List.mem_cons.mp hx with hx | hx
    · exact absurd hx (by decide)
    · exact hm2 hx
  have h3 : eolP ((' ') :: (mid ++ ('\r') :: rest)) = .Done rest ((' ') :: mid) := by
    simpa [eolP] using tuac_found rest hmr
  have hws : splitWhitespace ((' ') :: mid) = splitWhitespace mid :=
    splitWhitespace_ws_cons (' ') mid (by decide)
  simp [afterPfx, commandP, nbind, nopt, wordP, h1, h2, h3, hws]

theorem afterPfx_incomplete (p : Option Pfx) {r : List Char} (h : ('\r') ∉ r) :
    afterPfx p r = .Incomplete := by
  cases hw : takeUntil ([' ']) r with
  | Error => exact absurd hw (takeUntil_ne_error _ _)
  | Incomplete => simp [afterPfx, commandP, nbind, wordP, hw]
  | Done r2 cmd =>
    have hr2 : ('\r') ∉ r2 := by
      have hsplit := takeUntil_done_split hw
      intro hx
      exact h (by rw [hsplit]; simp [hx])
    cases hco : takeUntilAndConsume ([':']) r2 with
    | Error => exact absurd hco (tuac_ne_error _ _)
    | Done r3 v =>
      have hr3 : ('\r') ∉ r3 := by
        have hsplit := tuac_done_split hco
        intro hx
        exact hr2 (by rw [hsplit]; simp [hx])
      have he : eolP r3 = .Incomplete := by simpa [eolP] using tuac_not_found hr3
      simp [afterPfx, commandP, nbind, nopt, wordP, hw, hco, he]
    | Incomplete =>
      have he : eolP r2 = .Incomplete := by simpa [eolP] using tuac_not_found hr2
      simp [afterPfx, commandP, nbind, nopt, wordP, hw, hco, he]

/- Lemmas about the `u16::from_str` model. -/

theorem digitsVal_nil (acc : Nat) : digitsVal acc [] = acc := rfl

theorem digitsVal_cons (acc : Nat) (c : Char) (cs : List Char) :
    digitsVal acc (c :: cs) = digitsVal (acc * 10 + (c.toNat - 48)) cs := rfl

theorem digitsVal_le (acc : Nat) (ds : List Char) : acc ≤ digitsVal acc ds := by
  induction ds generalizing acc with
  | nil => exact Nat.le_refl acc
  | cons c cs ih =>
    have h1 : acc ≤ acc * 10 + (c.toNat - 48) := by omega
    exact Nat.le_trans h1 (ih _)

theorem u16Digits_nil (acc : Nat) : u16FromStrDigits [] acc = some acc := rfl

theorem u16Digits_cons (c : Char) (cs : List Char) (acc : Nat) :
    u16FromStrDigits (c :: cs) acc =
      if c.isDigit then
        (if acc * 10 + (c.toNat - 48) ≤ 65535 then
          u16FromStrDigits cs (acc * 10 + (c.toNat - 48))
         else none)
      else none := rfl

theorem u16FromStrDigits_spec (ds : List Char) (acc : Nat) (h : acc ≤ 65535) :
    u16FromStrDigits ds acc =
      if ds.all Char.isDigit ∧ digitsVal acc ds ≤ 65535 then some (digitsVal acc ds)
      else none := by
  induction ds generalizing acc with
  | nil => simp [u16Digits_nil, digitsVal_nil, h]
  | cons c cs ih =>
    by_cases hd : c.isDigit = true
    · by_cases hb : acc * 10 + (c.toNat - 48) ≤ 65535
      · rw [u16Digits_cons, if_pos hd, if_pos hb, ih _ hb]
        simp [digitsVal_cons, List.all_cons, hd]
      · have hge := digitsVal_le (acc * 10 + (c.toNat - 48)) cs
        rw [u16Digits_cons, if_pos hd, if_neg hb, if_neg]
        rintro ⟨-, h2⟩
        rw [digitsVal_cons] at h2
        omega
    · rw [u16Digits_cons, if_neg hd, if_neg]
      rintro ⟨h1, -⟩
      simp [List.all_cons, hd] at h1

theorem u16FromStr_nil : u16FromStr [] = none := rfl

theorem u16FromStr_cons (c : Char) (rest : List Char) :
    u16FromStr (c :: rest) =
      if c = '+' then (if rest.isEmpty then none else u16FromStrDigits rest 0)
      else if c = '-' then none
      else u16FromStrDigits (c :: rest) 0 := rfl

theorem u16FromStr_spec (tok : List Char) :
    u16FromStr tok =
      if plusStripped tok ≠ [] ∧ (plusStripped tok).all Char.isDigit ∧
          digitsVal 0 (plusStripped tok) ≤ 65535
      then some (digitsVal 0 (plusStripped tok)) else none := by
  cases tok with
  | nil => simp [u16FromStr_nil, plusStripped]
  | cons c rest =>
    by_cases hp : c = '+'
    · subst hp
      cases rest with
      | nil => simp [u16FromStr_cons, plusStripped]
      | cons a b =>
        rw [u16FromStr_cons, if_pos rfl]
        have hds : plusStripped (('+') :: a :: b) = a :: b := by
          simp [plusStripped]
        rw [hds, if_neg (by simp)]
        rw [u16FromStrDigits_spec _ 0 (by omega)]
        simp
    · by_cases hm : c = '-'
      · subst hm
        rw [u16FromStr_cons, if_neg (by decide), if_pos rfl]
        rw [if_neg]
        rintro ⟨-, h1, -⟩
        simp [plusStripped] at h1
      · rw [u16FromStr_cons, if_neg hp, if_neg hm]
        rw [u16FromStrDigits_spec _ 0 (by omega)]
        have hds : plusStripped (c :: rest) = c :: rest := by
          simp [plusStripped, hp]
        rw [hds]
        simp

/- Claim theorems. -/

/-- C1: evaluating the parser at the spec's scenario-3 input
`":user!host@example.com PRIVMSG #channel :message\r\n"`.  Contrary to the
claim, the prefix decodes to `Server("user!host@example.com")`, not to the
`User("user","host","example.com")` triple: `host_parser` ends in
`word_parser`, which demands a space after the host, and the prefix word
handed to it (cut off at the first space) never contains one. -/
theorem c1_user_prefix_eval :
    parse_message ((":user!host@example.com PRIVMSG #channel :message\r\n").toList) =
      .ok { pfx := some (.Server (("user!host@example.com").toList)),
            command := .Named (("PRIVMSG").toList),
            params := [(("#channel").toList), (("message").toList)] } := by
  rfl

/-- C2: for every valid line with a trailing-parameter marker `:` after the
command (optionally prefixed), the decoded params are the whitespace-split
non-empty middle tokens in order followed by exactly one final parameter
holding everything between the `:` and the `\r` terminator, verbatim. -/
theorem c2_trailing_param_split (pw : Option (List Char)) (cmd mid trail rest : List Char)
    (hpw : ∀ w, pw = some w → (' ') ∉ w)
    (hc1 : cmd ≠ []) (hc2 : (' ') ∉ cmd) (hc3 : (':') ∉ cmd)
    (hc4 : cmd.head? ≠ some ('\t'))
    (hm1 : (':') ∉ mid) (hm2 : ('\r') ∉ mid) (ht : ('\r') ∉ trail) :
    (parse_message (pfxPart pw ++
        (cmd ++ (' ') :: (mid ++ (':') :: (trail ++ ('\r') :: rest))))).map
        (fun m => m.params) =
      .ok (splitWhitespace mid ++ [trail]) := by
  obtain ⟨c0, cmd', rfl⟩ : ∃ c0 cmd', cmd = c0 :: cmd' := by
    cases cmd with
    | nil => exact absurd rfl hc1
    | cons a b => exact ⟨a, b, rfl⟩
  have h1 : ¬ (c0 = ' ') := fun e => hc2 (by simp [e])
  have h2 : ¬ (c0 = '\t') := fun e => hc4 (by simp [e])
  have hc0sp : isSpaceChar c0 = false := by simp [isSpaceChar, h1, h2]
  have hmid := afterPfx_colon (p := none) mid trail rest hc2 hm1 ht
  cases pw with
  | none =>
    have hcol : ¬ ((':') = c0) := by
      intro e
      exact hc3 (by rw [← e]; exact List.mem_cons_self _ _)
    have hpfx : pfxP (c0 :: (cmd' ++ (' ') ::
        (mid ++ (':') :: (trail ++ ('\r') :: rest)))) = .Error :=
      pfxP_no_colon _ hcol
    simp only [List.cons_append] at hmid
    simp only [pfxPart, List.nil_append, List.cons_append]
    simp [parse_message, messageP, nopt, nbind, hpfx, hmid, Except.map]
  | some w =>
    have hw : (' ') ∉ w := hpw w rfl
    have hpfx := pfxP_server hw
      (cmd' ++ (' ') :: (mid ++ (':') :: (trail ++ ('\r') :: rest))) hc0sp
    have hmid2 := afterPfx_colon (p := some (.Server w)) mid trail rest hc2 hm1 ht
    simp only [List.cons_append] at hmid2
    simp only [pfxPart, List.cons_append, List.append_assoc, List.singleton_append]
    simp [parse_message, messageP, nopt, nbind, hpfx, hmid2, Except.map]

/-- C2 witness: the theorem applied to the concrete line
`":srv CMD  a  b:x y\r\n"` (prefix word `srv`, command `CMD`, middle region
` a  b`, trailing `x y`, leftover `\n`). -/
theorem c2_trailing_param_split_witness :
    (parse_message (pfxPart (some (("srv").toList)) ++
        ((("CMD").toList) ++ (' ') :: (((" a  b").toList) ++ (':') ::
          ((("x y").toList) ++ ('\r') :: (("\n").toList)))))).map
        (fun m => m.params) =
      .ok (splitWhitespace ((" a  b").toList) ++ [(("x y").toList)]) :=
  c2_trailing_param_split (some (("srv").toList)) (("CMD").toList) ((" a  b").toList)
    (("x y").toList) (("\n").toList)
    (fun w hw => by cases hw; decide)
    (by decide) (by decide) (by decide) (by decide) (by decide) (by decide) (by decide)

/-- C3: decoding is total: for every input, `parse_message` returns either an
`ok` message or an `error` value (the embedding is a total function and the
Rust parse path contains no panicking operation). -/
theorem c3_decode_total (i : List Char) :
    (∃ m, parse_message i = .ok m) ∨ (∃ e, parse_message i = .error e) := by
  cases h : messageP i with
  | Done r m => exact Or.inl ⟨m, by simp [parse_message, h]⟩
  | Incomplete => exact Or.inr ⟨.Incomplete, by simp [parse_message, h]⟩
  | Error => exact Or.inr ⟨.Malformed, by simp [parse_message, h]⟩

/-- C4 counterexample: the token `+1` contains the non-digit character `+`,
yet the command decoder produces `Numeric(1)`, not `Named("+1")`: Rust's
unsigned `from_str` accepts one leading `+` sign. -/
theorem c4_plus_token_counterexample :
    commandP (("+1 ").toList) = .Done ([' ']) (.Numeric 1) ∧
    ((('+') ∈ (("+1").toList)) ∧ ('+').isDigit = false) := by
  exact ⟨rfl, by decide⟩

/-- C4 amended: a command token decodes to `Numeric` exactly when, after
stripping one optional leading `+`, it consists of one or more ASCII digits
whose value is at most 65535; every other token (empty, containing any other
non-digit, or overflowing) decodes to `Named` with the token preserved
verbatim. -/
theorem c4_amended_classification (tok rest : List Char) (h : (' ') ∉ tok) :
    commandP (tok ++ (' ') :: rest) =
      .Done ((' ') :: rest)
        (if plusStripped tok ≠ [] ∧ (plusStripped tok).all Char.isDigit ∧
            digitsVal 0 (plusStripped tok) ≤ 65535
         then .Numeric (digitsVal 0 (plusStripped tok))
         else .Named tok) := by
  have h1 : takeUntil ([' ']) (tok ++ (' ') :: rest) = .Done ((' ') :: rest) tok :=
    takeUntil_cons_found _ h
  simp only [commandP, nbind, wordP, h1, u16FromStr_spec tok]
  by_cases hcond : plusStripped tok ≠ [] ∧ (plusStripped tok).all Char.isDigit ∧
      digitsVal 0 (plusStripped tok) ≤ 65535
  · rw [if_pos hcond, if_pos hcond]
  · rw [if_neg hcond, if_neg hcond]

/-- C4 amended witness: the theorem applied to the all-digit token `007`,
which decodes to `Numeric(7)`. -/
theorem c4_amended_classification_witness :
    commandP ((("007").toList) ++ (' ') :: (("x").toList)) =
      .Done ((' ') :: (("x").toList))
        (if plusStripped (("007").toList) ≠ [] ∧
            (plusStripped (("007").toList)).all Char.isDigit ∧
            digitsVal 0 (plusStripped (("007").toList)) ≤ 65535
         then .Numeric (digitsVal 0 (plusStripped (("007").toList)))
         else .Named (("007").toList)) :=
  c4_amended_classification (("007").toList) (("x").toList) (by decide)

/-- C5: for every input in which the terminator byte `\r` never occurs,
`parse_message` fails with the Incomplete error kind, never the Malformed
kind. -/
theorem c5_no_terminator_incomplete (i : List Char) (h : ('\r') ∉ i) :
    parse_message i = .error .Incomplete := by
  cases hp : pfxP i with
  | Done r p =>
    obtain ⟨pre, hpre⟩ := pfxP_done_split hp
    have hr : ('\r') ∉ r := by
      intro hx
      exact h (by rw [hpre]; simp [hx])
    simp [parse_message, messageP, nopt, nbind, hp, afterPfx_incomplete (some p) hr]
  | Incomplete =>
    simp [parse_message, messageP, nopt, nbind, hp, afterPfx_incomplete none h]
  | Error =>
    simp [parse_message, messageP, nopt, nbind, hp, afterPfx_incomplete none h]

/-- C5 witness: the theorem applied to the terminator-free input `PING`. -/
theorem c5_no_terminator_incomplete_witness :
    parse_message (("PING").toList) = .error .Incomplete :=
  c5_no_terminator_incomplete (("PING").toList) (by decide)

/-- C6 counterexample: the input `"PING\r"` (terminator present, no space
after the command word) does NOT decode successfully to `Named("PING")` as
the claim states: the command word scanner `take_until!(" ")` finds no space
and the whole parse fails with an Incomplete error. -/
theorem c6_no_space_after_command_counterexample :
    parse_message (("PING\r").toList) = .error .Incomplete := by
  rfl

/-- C6 amended: the command decoder extracts the command word only up to the
next space byte — there is no fallback to the trailing-parameter/terminator
boundary — so whenever the remaining input contains no space at all the
command extraction (and with it the whole decode) fails with an Incomplete
error; in particular `"PING\r"` does not decode. -/
theorem c6_amended_no_space_fails (i : List Char) (h : (' ') ∉ i) :
    commandP i = .Incomplete := by
  simp [commandP, nbind, wordP, takeUntil_not_found h]

/-- C6 amended witness: the theorem applied to the space-free input
`"PING\r"`. -/
theorem c6_amended_no_space_fails_witness :
    commandP (("PING\r").toList) = .Incomplete :=
  c6_amended_no_space_fails (("PING\r").toList) (by decide)

/-- C7 counterexample: in `"CMD a b\rx:y\rz"` no `:` occurs before the first
`\r` terminator (first conjunct), so by the claim the parameters should be
the whitespace-split text before the terminator, `["a","b"]`.  Instead the
parser finds the `:` *after* the terminator, selects the trailing-parameter
mode, and produces `["a","b","x","y"]`: mode selection does not depend only
on the bytes before the terminator. -/
theorem c7_mode_selection_counterexample :
    ((("CMD a b\rx:y\rz").toList).takeWhile (fun c => !(c == ('\r')))).all
        (fun c => !(c == (':'))) = true ∧
    (parse_message (("CMD a b\rx:y\rz").toList)).map (fun m => m.params) =
      .ok [(("a").toList), (("b").toList), (("x").toList), (("y").toList)] := by
  exact ⟨by decide, rfl⟩

/-- C7 amended: mode selection depends on whether a `:` occurs anywhere in
the remaining input after the command (even past the `\r` terminator).  For
every line in which no `:` occurs after the command at all, the remaining
text up to the terminator is split on whitespace and each non-empty token
becomes its own parameter, with no single special last parameter. -/
theorem c7_amended_no_colon_split (pw : Option (List Char)) (cmd mid rest : List Char)
    (hpw : ∀ w, pw = some w → (' ') ∉ w)
    (hc1 : cmd ≠ []) (hc2 : (' ') ∉ cmd) (hc3 : (':') ∉ cmd)
    (hc4 : cmd.head? ≠ some ('\t'))
    (hm1 : (':') ∉ mid) (hm2 : ('\r') ∉ mid) (hr : (':') ∉ rest) :
    (parse_message (pfxPart pw ++ (cmd ++ (' ') :: (mid ++ ('\r') :: rest)))).map
        (fun m => m.params) =
      .ok (splitWhitespace mid) := by
  obtain ⟨c0, cmd', rfl⟩ : ∃ c0 cmd', cmd = c0 :: cmd' := by
    cases cmd with
    | nil => exact absurd rfl hc1
    | cons a b => exact ⟨a, b, rfl⟩
  have h1 : ¬ (c0 = ' ') := fun e => hc2 (by simp [e])
  have h2 : ¬ (c0 = '\t') := fun e => hc4 (by simp [e])
  have hc0sp : isSpaceChar c0 = false := by simp [isSpaceChar, h1, h2]
  cases pw with
  | none =>
    have hcol : ¬ ((':') = c0) := by
      intro e
      exact hc3 (by rw [← e]; exact List.mem_cons_self _ _)
    have hpfx : pfxP (c0 :: (cmd' ++ (' ') :: (mid ++ ('\r') :: rest))) = .Error :=
      pfxP_no_colon _ hcol
    have hmid := afterPfx_nocolon (p := none) mid rest hc2 hm1 hm2 hr
    simp only [List.cons_append] at hmid
    simp only [pfxPart, List.nil_append, List.cons_append]
    simp [parse_message, messageP, nopt, nbind, hpfx, hmid, Except.map]
  | some w =>
    have hw : (' ') ∉ w := hpw w rfl
    have hpfx := pfxP_server hw (cmd' ++ (' ') :: (mid ++ ('\r') :: rest)) hc0sp
    have hmid := afterPfx_nocolon (p := some (.Server w)) mid rest hc2 hm1 hm2 hr
    simp only [List.cons_append] at hmid
    simp only [pfxPart, List.cons_append, List.append_assoc, List.singleton_append]
    simp [parse_message, messageP, nopt, nbind, hpfx, hmid, Except.map]

/-- C7 amended witness: the theorem applied to the concrete colon-free line
`"PING a b\r\n"`, whose params are `["a","b"]`. -/
theorem c7_amended_no_colon_split_witness :
    (parse_message (pfxPart none ++ ((("PING").toList) ++ (' ') ::
        ((("a b").toList) ++ ('\r') :: (("\n").toList))))).map
        (fun m => m.params) =
      .ok (splitWhitespace (("a b").toList)) :=
  c7_amended_no_colon_split none (("PING").toList) (("a b").toList) (("\n").toList)
    (fun w hw => by cases hw)
    (by decide) (by decide) (by decide) (by decide) (by decide) (by decide) (by decide)

/-- C8: prefix round trip: decoding the prefix of `":a!b@c "` and rendering
the resulting value reproduces `"a!b@c"`, and likewise `":host.name "`
reproduces `"host.name"` (both decode to `Server` values, whose rendering is
the verbatim word). -/
theorem c8_roundtrip :
    (pfxP ((":a!b@c ").toList) = .Done [] (.Server (("a!b@c").toList)) ∧
      Pfx.toStr (.Server (("a!b@c").toList)) = ("a!b@c").toList) ∧
    (pfxP ((":host.name ").toList) = .Done [] (.Server (("host.name").toList)) ∧
      Pfx.toStr (.Server (("host.name").toList)) = ("host.name").toList) := by
  exact ⟨⟨rfl, rfl⟩, ⟨rfl, rfl⟩⟩

/-- C9: invariant of the prefix decoder: every prefix it ever produces is a
`Server` value — the `User` variant is unreachable, because the user-triple
sub-parse ends in a space-demanding word scanner while the prefix word (cut
off before the first space) never contains a space. -/
theorem c9_only_server (i r : List Char) (p : Pfx) (h : pfxP i = .Done r p) :
    ∃ s, p = .Server s := by
  cases h1 : tagTok ([':']) i with
  | Incomplete => simp [pfxP, nbind, h1] at h
  | Error => simp [pfxP, nbind, h1] at h
  | Done r1 v1 =>
    cases h2 : wordP r1 with
    | Incomplete => simp [pfxP, nbind, h1, h2] at h
    | Error => simp [pfxP, nbind, h1, h2] at h
    | Done r2 w =>
      have hw : (' ') ∉ w := takeUntil_done_not_mem (by simpa [wordP] using h2)
      cases h3 : spaceTok r2 with
      | Incomplete => simp [pfxP, nbind, h1, h2, h3] at h
      | Error => simp [pfxP, nbind, h1, h2, h3] at h
      | Done r3 sp =>
        cases hh : hostP w with
        | Done rr tt => exact absurd hh (hostP_no_space hw rr tt)
        | Incomplete =>
          simp [pfxP, nbind, h1, h2, h3, hh] at h
          exact ⟨w, h.2.symm⟩
        | Error =>
          simp [pfxP, nbind, h1, h2, h3, hh] at h
          exact ⟨w, h.2.symm⟩

/-- C9 witness: the theorem applied to the prefix input `":a.b "`, which
decodes to `Server("a.b")`. -/
theorem c9_only_server_witness :
    ∃ s, Pfx.Server (("a.b").toList) = Pfx.Server s :=
  c9_only_server ((":a.b ").toList) [] (.Server (("a.b").toList)) (by rfl)

/-- C10: for every message without a prefix, the whitespace-joined rendering
is the command text, then two consecutive spaces (the separators on both
sides of the omitted prefix), then the params joined by single spaces. -/
theorem c10_double_space (m : Message) (h : m.pfx = none) :
    m.to_whitespace_separated =
      Command.toStr m.command ++ (' ') :: (' ') :: List.intercalate ([' ']) m.params := by
  simp [Message.to_whitespace_separated, h]

/-- C10 witness: the theorem applied to the prefix-less message
`Named("PING")` with params `["ab"]`, rendered as `"PING  ab"`. -/
theorem c10_double_space_witness :
    Message.to_whitespace_separated
        { pfx := none, command := .Named (("PING").toList), params := [(("ab").toList)] } =
      (("PING  ab").toList) := by
  rw [c10_double_space _ rfl]
  decide

end RBot
